import Mathlib

/-!
Verification of the label classifier in `find_bad.py`.

The classifier core is a pure function from a figure record to a boolean
verdict (`true` = bad label).  We embed the geometry helpers (`contains`,
`area`), the border rule (`all_in_border`), the area rule (`is_sum_larger`)
and the 4-rule decision chain (`check`) shallowly, with rationals standing
for the numeric values, lists of character for filenames, and an explicit
`Option`/`Except` layer standing for JSON parsing and key lookup.
-/

namespace FindBad

/-- A bounding box `[x0, y0, x1, y1]`, as the 4-element lists used by the
Python code (`a[0], a[1], a[2], a[3]`). -/
structure Box where
  x0 : ℚ
  y0 : ℚ
  x1 : ℚ
  y1 : ℚ
deriving DecidableEq

/-- One text hit: the Python dict accessed as `text['TextBB']`. -/
structure TextBox where
  TextBB : Box
deriving DecidableEq

/-- `contains(a, b)`: true if box `a` is in box `b` (source lines 46-48):
`a[0] > b[0] and a[2] < b[2] and a[1] > b[1] and a[3] < b[3]`. -/
def contains (a b : Box) : Bool :=
  decide (a.x0 > b.x0) && decide (a.x1 < b.x1) &&
  decide (a.y0 > b.y0) && decide (a.y1 < b.y1)

/-- `area(a) = (a[2] - a[0]) * (a[3] - a[1])` (source lines 51-52). -/
def area (a : Box) : ℚ :=
  (a.x1 - a.x0) * (a.y1 - a.y0)

/-- The `not_top_border` region built inside `all_in_border`
(source lines 60-61): `[x0, y0 + h*0.05, x1, y1]` with `h = y1 - y0`. -/
def not_top_border (b : Box) : Box :=
  ⟨b.x0, b.y0 + (b.y1 - b.y0) * (1/20), b.x1, b.y1⟩

/-- The `not_bottom_border` region built inside `all_in_border`
(source lines 62-63): `[x0, y0, x1, y1 - h*0.05]`. -/
def not_bottom_border (b : Box) : Box :=
  ⟨b.x0, b.y0, b.x1, b.y1 - (b.y1 - b.y0) * (1/20)⟩

/-- The `for text in texts` loop of `all_in_border` (source lines 65-78):
two flags, set when a text box is contained in the corresponding shrunk
region, with an early `return False` as soon as both are set. -/
def border_loop (ntb nbb : Box) : Bool → Bool → List TextBox → Bool
  | _, _, [] => true
  | top, bottom, t :: rest =>
    let top2 := top || contains t.TextBB ntb
    let bottom2 := bottom || contains t.TextBB nbb
    if top2 && bottom2 then false else border_loop ntb nbb top2 bottom2 rest

/-- `all_in_border(bounds, texts)` (source lines 55-78). -/
def all_in_border (bounds : Box) (texts : List TextBox) : Bool :=
  border_loop (not_top_border bounds) (not_bottom_border bounds) false false texts

/-- The accumulator loop of `is_sum_larger` (source lines 82-87):
add `area(text['TextBB'])`, return `True` as soon as the running total
exceeds `max_area`. -/
def sum_loop (max_area : ℚ) : ℚ → List TextBox → Bool
  | _, [] => false
  | sum_so_far, t :: rest =>
    let s := sum_so_far + area t.TextBB
    if max_area < s then true else sum_loop max_area s rest

/-- `is_sum_larger(max_area, texts)` (source lines 81-87). -/
def is_sum_larger (max_area : ℚ) (texts : List TextBox) : Bool :=
  sum_loop max_area 0 texts

/-- The parsed JSON object fed to `check`: each required key may be
absent (accessing an absent key raises `KeyError` in Python). -/
structure RawRecord where
  ImageBB : Option Box
  ImageText : Option (List TextBox)
deriving DecidableEq

/-- Structured errors of the parse/lookup layer of `check`:
`json.loads` failure, or a `KeyError` on a required key. -/
inductive CheckErr where
  | parseFail : CheckErr
  | missingKey : String → CheckErr
deriving DecidableEq

/-- `check(json_data)` (source lines 90-117), with the fallible layer made
explicit: `none` input stands for text that is not valid JSON, and each
dictionary access is performed exactly where the Python code performs it:
`data['ImageText']` first (line 92), `data['ImageBB']` only at the border
rule (line 105), after the two length rules have not fired. -/
def check (input : Option RawRecord) : Except CheckErr Bool :=
  match input with
  | none => .error .parseFail
  | some data =>
    match data.ImageText with
    | none => .error (.missingKey "ImageText")
    | some texts =>
      if texts.length = 0 then .ok true
      else if texts.length = 1 then .ok true
      else
        match data.ImageBB with
        | none => .error (.missingKey "ImageBB")
        | some bb =>
          if all_in_border bb texts then .ok true
          else if is_sum_larger (area bb * (1/2)) texts then .ok true
          else .ok false

/-- The top 5% strip of a box: the part of `b` that `not_top_border`
excludes (spec vocabulary for stating the border-rule claims). -/
def top_strip (b : Box) : Box :=
  ⟨b.x0, b.y0, b.x1, b.y0 + (b.y1 - b.y0) * (1/20)⟩

/-! ### Loop characterizations -/

/-- The area a text box contributes to the running sum. -/
def textArea (t : TextBox) : ℚ := area t.TextBB

theorem bool_and_split {a b : Bool} (h : (a && b) = true) : a = true ∧ b = true := by
  simpa using h

theorem bool_or_split {a b : Bool} (h : (a || b) = true) : a = true ∨ b = true := by
  simpa using h

theorem border_loop_false_iff (ntb nbb : Box) :
    ∀ (l : List TextBox) (top bottom : Bool),
      border_loop ntb nbb top bottom l = false ↔
        l ≠ [] ∧
        (top = true ∨ ∃ t ∈ l, contains t.TextBB ntb = true) ∧
        (bottom = true ∨ ∃ t ∈ l, contains t.TextBB nbb = true) := by
  intro l
  induction l with
  | nil =>
    intro top bottom
    simp [border_loop]
  | cons x rest ih =>
    intro top bottom
    simp only [border_loop]
    by_cases hb : ((top || contains x.TextBB ntb) && (bottom || contains x.TextBB nbb)) = true
    · rw [if_pos hb]
      constructor
      · intro _
        refine ⟨by simp, ?_, ?_⟩
        · rcases bool_or_split (bool_and_split hb).1 with h | h
          · exact Or.inl h
          · exact Or.inr ⟨x, by simp, h⟩
        · rcases bool_or_split (bool_and_split hb).2 with h | h
          · exact Or.inl h
          · exact Or.inr ⟨x, by simp, h⟩
      · intro _; rfl
    · rw [if_neg hb]
      rw [ih]
      constructor
      · rintro ⟨hne, h1, h2⟩
        refine ⟨by simp, ?_, ?_⟩
        · rcases h1 with h | ⟨t, ht, hc⟩
          · rcases bool_or_split h with h | h
            · exact Or.inl h
            · exact Or.inr ⟨x, by simp, h⟩
          · exact Or.inr ⟨t, by simp [ht], hc⟩
        · rcases h2 with h | ⟨t, ht, hc⟩
          · rcases bool_or_split h with h | h
            · exact Or.inl h
            · exact Or.inr ⟨x, by simp, h⟩
          · exact Or.inr ⟨t, by simp [ht], hc⟩
      · rintro ⟨-, h1, h2⟩
        have h1' : (top || contains x.TextBB ntb) = true ∨
            ∃ t ∈ rest, contains t.TextBB ntb = true := by
          rcases h1 with h | ⟨t, ht, hc⟩
          · exact Or.inl (by simp [h])
          · rcases List.mem_cons.mp ht with rfl | ht'
            · exact Or.inl (by simp [hc])
            · exact Or.inr ⟨t, ht', hc⟩
        have h2' : (bottom || contains x.TextBB nbb) = true ∨
            ∃ t ∈ rest, contains t.TextBB nbb = true := by
          rcases h2 with h | ⟨t, ht, hc⟩
          · exact Or.inl (by simp [h])
          · rcases List.mem_cons.mp ht with rfl | ht'
            · exact Or.inl (by simp [hc])
            · exact Or.inr ⟨t, ht', hc⟩
        -- if the rest were empty, both flags would already be set,
        -- contradicting the guard being false
        have hne : rest ≠ [] := by
          rintro rfl
          apply hb
          rcases h1' with h | ⟨t, ht, _⟩
          · rcases h2' with h' | ⟨t, ht, _⟩
            · simp [h, h']
            · simp at ht
          · simp at ht
        exact ⟨hne, h1', h2'⟩

/-- `all_in_border` returns false exactly when some text box is strictly in
the not-top-border region and some text box is strictly in the
not-bottom-border region. -/
theorem all_in_border_false_iff (bounds : Box) (texts : List TextBox) :
    all_in_border bounds texts = false ↔
      (∃ t ∈ texts, contains t.TextBB (not_top_border bounds) = true) ∧
      (∃ t ∈ texts, contains t.TextBB (not_bottom_border bounds) = true) := by
  rw [all_in_border, border_loop_false_iff]
  constructor
  · rintro ⟨-, h1, h2⟩
    refine ⟨?_, ?_⟩
    · rcases h1 with h | h
      · exact absurd h (by simp)
      · exact h
    · rcases h2 with h | h
      · exact absurd h (by simp)
      · exact h
  · rintro ⟨h1, h2⟩
    refine ⟨?_, Or.inr h1, Or.inr h2⟩
    rcases h1 with ⟨t, ht, -⟩
    exact List.ne_nil_of_mem ht

theorem sum_loop_true_iff (m : ℚ) :
    ∀ (l : List TextBox) (acc : ℚ),
      sum_loop m acc l = true ↔
        ∃ k < l.length, m < acc + ((l.take (k + 1)).map textArea).sum := by
  intro l
  induction l with
  | nil =>
    intro acc
    simp [sum_loop]
  | cons t rest ih =>
    intro acc
    simp only [sum_loop]
    by_cases h : m < acc + area t.TextBB
    · rw [if_pos h]
      exact iff_of_true rfl ⟨0, by simp, by simpa [textArea] using h⟩
    · rw [if_neg h]
      rw [ih]
      constructor
      · rintro ⟨k, hk, hs⟩
        refine ⟨k + 1, by simpa using Nat.succ_lt_succ hk, ?_⟩
        simp only [List.take_succ_cons, List.map_cons, List.sum_cons, textArea] at hs ⊢
        linarith
      · rintro ⟨k, hk, hs⟩
        cases k with
        | zero =>
          exfalso
          apply h
          simpa [textArea] using hs
        | succ k =>
          refine ⟨k, by simpa using Nat.lt_of_succ_lt_succ hk, ?_⟩
          simp only [List.take_succ_cons, List.map_cons, List.sum_cons, textArea] at hs ⊢
          linarith

/-- `is_sum_larger` fires exactly when some running prefix total strictly
exceeds the threshold. -/
theorem is_sum_larger_iff (m : ℚ) (l : List TextBox) :
    is_sum_larger m l = true ↔
      ∃ k < l.length, m < ((l.take (k + 1)).map textArea).sum := by
  rw [is_sum_larger, sum_loop_true_iff]
  simp

theorem bool_eq_of_true_iff {a b : Bool} (h : (a = true) ↔ (b = true)) : a = b := by
  cases a <;> cases b <;> simp_all

theorem bool_eq_false_of_not_true {a : Bool} (h : ¬ a = true) : a = false := by
  cases a <;> simp_all

/-- The border verdict only depends on which boxes occur in the list. -/
theorem all_in_border_perm (bb : Box) {l1 l2 : List TextBox} (hp : l1.Perm l2) :
    all_in_border bb l1 = all_in_border bb l2 := by
  have hiff : all_in_border bb l1 = false ↔ all_in_border bb l2 = false := by
    rw [all_in_border_false_iff, all_in_border_false_iff]
    constructor <;> rintro ⟨⟨t, ht, hc⟩, ⟨u, hu, hcu⟩⟩
    · exact ⟨⟨t, hp.mem_iff.mp ht, hc⟩, ⟨u, hp.mem_iff.mp hu, hcu⟩⟩
    · exact ⟨⟨t, hp.mem_iff.mpr ht, hc⟩, ⟨u, hp.mem_iff.mpr hu, hcu⟩⟩
  cases e1 : all_in_border bb l1 <;> cases e2 : all_in_border bb l2 <;> simp_all

/-- With only nonnegative text areas, the short-circuiting running-sum
check is equivalent to comparing the total sum with the threshold. -/
theorem is_sum_larger_of_nonneg (m : ℚ) {l : List TextBox}
    (hne : 0 < l.length) (hpos : ∀ t ∈ l, 0 ≤ textArea t) :
    (is_sum_larger m l = true ↔ m < (l.map textArea).sum) := by
  rw [is_sum_larger_iff]
  constructor
  · rintro ⟨k, hk, hs⟩
    have hsplit : (((l.map textArea).take (k + 1)).sum) +
        (((l.map textArea).drop (k + 1)).sum) = (l.map textArea).sum := by
      rw [← List.sum_append, List.take_append_drop]
    have hdrop : 0 ≤ ((l.map textArea).drop (k + 1)).sum := by
      apply List.sum_nonneg
      intro x hx
      have hx' : x ∈ l.map textArea := List.drop_subset _ _ hx
      rcases List.mem_map.mp hx' with ⟨t, ht, rfl⟩
      exact hpos t ht
    have htake : ((l.take (k + 1)).map textArea).sum =
        ((l.map textArea).take (k + 1)).sum := by
      rw [List.map_take]
    linarith [hs, hsplit, hdrop, htake.symm ▸ hs]
  · intro h
    refine ⟨l.length - 1, by omega, ?_⟩
    have : l.length - 1 + 1 = l.length := by omega
    rw [this, List.take_length]
    exact h

/-! ### Claims -/

/-- C7: `all_in_border(bounds, texts)` returns false if and only if some
text box is strictly contained in the not-top-border region
`(x0, y0 + 0.05*h, x1, y1)` and some (possibly the same) text box is
strictly contained in the not-bottom-border region
`(x0, y0, x1, y1 - 0.05*h)`: the short-circuiting two-flag loop is
equivalent to this declarative existential characterization. -/
theorem all_in_border_iff_exists (bounds : Box) (texts : List TextBox) :
    all_in_border bounds texts = false ↔
      (∃ t ∈ texts, contains t.TextBB (not_top_border bounds) = true) ∧
      (∃ t ∈ texts, contains t.TextBB (not_bottom_border bounds) = true) :=
  all_in_border_false_iff bounds texts

/-- C9: `contains(a, b)` is strict containment on all four edges, and a
box with any edge exactly aligned with the corresponding edge of `b` is
not contained in `b`. -/
theorem contains_strict (a b : Box) :
    (contains a b = true ↔
      (a.x0 > b.x0 ∧ a.x1 < b.x1 ∧ a.y0 > b.y0 ∧ a.y1 < b.y1)) ∧
    ((a.x0 = b.x0 ∨ a.x1 = b.x1 ∨ a.y0 = b.y0 ∨ a.y1 = b.y1) →
      contains a b = false) := by
  constructor
  · simp [contains, and_assoc]
  · rintro (h | h | h | h) <;> simp [contains, h]

/-- Witness for C9: a box aligned with `b` on the left edge is not
contained in `b`. -/
theorem contains_strict_witness :
    contains ⟨0, 0, 1, 1⟩ ⟨0, 0, 2, 2⟩ = false :=
  (contains_strict ⟨0, 0, 1, 1⟩ ⟨0, 0, 2, 2⟩).2 (Or.inl rfl)

/-- Counterexample to C3: a single text box strictly inside both shrunk
regions of a `(0,0,10,10)` image sets both flags in its own iteration, so
the early exit fires after examining one box and `all_in_border` returns
false on a one-element list. -/
theorem all_in_border_single_false :
    all_in_border ⟨0, 0, 10, 10⟩ [⟨⟨1, 1, 9, 17/2⟩⟩] = false := by
  norm_num [all_in_border, border_loop, not_top_border, not_bottom_border, contains]

/-- C3 as amended: on the empty list `all_in_border` returns true, and on
a one-element list it returns false exactly when that single box is
strictly contained in both shrunk regions — so the "both flags seen"
early exit can already trigger on the first box examined. -/
theorem all_in_border_small_lists (b : Box) (t : TextBox) :
    all_in_border b [] = true ∧
    (all_in_border b [t] = false ↔
      (contains t.TextBB (not_top_border b) = true ∧
       contains t.TextBB (not_bottom_border b) = true)) := by
  refine ⟨rfl, ?_⟩
  rw [all_in_border_false_iff]
  simp

/-- C5: a record whose `ImageText` list has zero or one element is
classified bad, whatever `ImageBB` holds — even when the key is absent. -/
theorem check_few_texts_bad (bbOpt : Option Box) (texts : List TextBox)
    (h : texts.length ≤ 1) :
    check (some ⟨bbOpt, some texts⟩) = .ok true := by
  match texts, h with
  | [], _ => rfl
  | [t], _ => rfl

/-- Witness for C5: the empty-text record with no `ImageBB` key. -/
theorem check_few_texts_bad_witness :
    check (some ⟨none, some []⟩) = .ok true :=
  check_few_texts_bad none [] (by decide)

/-- Counterexample to C2: a parsed record with one text box and no
`ImageBB` key is mapped to the verdict bad — `check` returns a boolean,
not an error, because `data['ImageBB']` is only read by the border rule,
which the two length rules cut off. -/
theorem check_missing_imagebb_verdict :
    check (some ⟨none, some [⟨⟨0, 0, 1, 1⟩⟩]⟩) = .ok true := rfl

/-- C2 as amended: invalid JSON and a missing `ImageText` key always
surface a structured error, and a missing `ImageBB` key surfaces a
structured error when the record has at least two text boxes; records
with at most one text box return the verdict bad without consulting
`ImageBB`. -/
theorem check_malformed_error :
    check none = .error .parseFail ∧
    (∀ bbOpt : Option Box,
      check (some ⟨bbOpt, none⟩) = .error (.missingKey "ImageText")) ∧
    (∀ texts : List TextBox, 2 ≤ texts.length →
      check (some ⟨none, some texts⟩) = .error (.missingKey "ImageBB")) := by
  refine ⟨rfl, fun _ => rfl, ?_⟩
  intro texts h
  have h0 : ¬ texts.length = 0 := by omega
  have h1 : ¬ texts.length = 1 := by omega
  simp [check, h0, h1]

/-- Witness for C2 as amended: a two-text record with no `ImageBB` key
raises the missing-key error. -/
theorem check_malformed_error_witness :
    check (some ⟨none, some [⟨⟨0, 0, 1, 1⟩⟩, ⟨⟨2, 2, 3, 3⟩⟩]⟩) =
      .error (.missingKey "ImageBB") :=
  check_malformed_error.2.2 [⟨⟨0, 0, 1, 1⟩⟩, ⟨⟨2, 2, 3, 3⟩⟩] (by decide)

/-- C10: `check` is deterministic — it is a pure function of its input,
so two invocations on the same record yield the same verdict. -/
theorem check_deterministic (input : Option RawRecord) :
    check input = check input := rfl

/-- C1: on a well-formed record `check` is the fixed four-rule chain —
bad exactly when the text list is empty, or has one element, or
`all_in_border` holds, or some running prefix of the text areas (in the
given order) strictly exceeds half the image area; good otherwise. -/
theorem check_rule_chain (bb : Box) (texts : List TextBox) :
    (check (some ⟨some bb, some texts⟩) = .ok true ↔
      texts.length = 0 ∨ texts.length = 1 ∨ all_in_border bb texts = true ∨
      ∃ k < texts.length,
        area bb * (1/2) < ((texts.take (k + 1)).map textArea).sum) ∧
    (check (some ⟨some bb, some texts⟩) = .ok false ↔
      ¬(texts.length = 0 ∨ texts.length = 1 ∨ all_in_border bb texts = true ∨
        ∃ k < texts.length,
          area bb * (1/2) < ((texts.take (k + 1)).map textArea).sum)) := by
  have hiff := is_sum_larger_iff (area bb * (1/2)) texts
  simp only [← hiff]
  by_cases h0 : texts.length = 0 <;>
    by_cases h1 : texts.length = 1 <;>
      by_cases hB : all_in_border bb texts = true <;>
        by_cases hS : is_sum_larger (area bb * (1/2)) texts = true <;>
          simp [check, h0, h1, hB, hS]

/-- Counterexample to C4: with an inverted (negative-area) text box the
short-circuiting running sum is order-dependent — the same two boxes give
the verdict bad in one order and good in the other. -/
theorem check_perm_dependent :
    (([⟨⟨1, 1, 9, 17/2⟩⟩, ⟨⟨5, 5, 1, 10⟩⟩] : List TextBox).Perm
      [⟨⟨5, 5, 1, 10⟩⟩, ⟨⟨1, 1, 9, 17/2⟩⟩]) ∧
    check (some ⟨some ⟨0, 0, 10, 10⟩,
      some [⟨⟨1, 1, 9, 17/2⟩⟩, ⟨⟨5, 5, 1, 10⟩⟩]⟩) = .ok true ∧
    check (some ⟨some ⟨0, 0, 10, 10⟩,
      some [⟨⟨5, 5, 1, 10⟩⟩, ⟨⟨1, 1, 9, 17/2⟩⟩]⟩) = .ok false := by
  refine ⟨List.Perm.swap _ _ _, ?_, ?_⟩ <;>
    norm_num [check, all_in_border, border_loop, not_top_border,
      not_bottom_border, contains, is_sum_larger, sum_loop, area]

/-- C4 as amended: when every text box has nonnegative area, the verdict
of `check` is invariant under permutation of the `ImageText` sequence —
order then only affects how many items `is_sum_larger` scans before
short-circuiting, never the result. -/
theorem check_perm_invariant (bbOpt : Option Box) (l1 l2 : List TextBox)
    (hp : l1.Perm l2) (hpos : ∀ t ∈ l1, 0 ≤ textArea t) :
    check (some ⟨bbOpt, some l1⟩) = check (some ⟨bbOpt, some l2⟩) := by
  have hlen := hp.length_eq
  by_cases h0 : l1.length = 0
  · have h0' : l2.length = 0 := by omega
    simp [check, h0, h0']
  by_cases h1 : l1.length = 1
  · have h1' : l2.length = 1 := by omega
    have h0' : ¬ l2.length = 0 := by omega
    simp [check, h0, h1, h0', h1']
  have h0' : ¬ l2.length = 0 := by omega
  have h1' : ¬ l2.length = 1 := by omega
  cases bbOpt with
  | none => simp [check, h0, h1, h0', h1']
  | some bb =>
    have hB : all_in_border bb l1 = all_in_border bb l2 :=
      all_in_border_perm bb hp
    have hS : is_sum_larger (area bb * (1/2)) l1 =
        is_sum_larger (area bb * (1/2)) l2 := by
      apply bool_eq_of_true_iff
      rw [is_sum_larger_of_nonneg _ (by omega) hpos,
        is_sum_larger_of_nonneg _ (by omega)
          (fun t ht => hpos t (hp.mem_iff.mpr ht)),
        (hp.map textArea).sum_eq]
    have hS' : is_sum_larger (area bb * 2⁻¹) l1 =
        is_sum_larger (area bb * 2⁻¹) l2 := by rwa [one_div] at hS
    simp [check, h0, h1, h0', h1', hB, hS']

/-- Witness for C4 as amended: swapping two nonnegative-area boxes leaves
the verdict unchanged. -/
theorem check_perm_invariant_witness :
    check (some ⟨some ⟨0, 0, 10, 10⟩,
      some [⟨⟨1, 1, 2, 2⟩⟩, ⟨⟨3, 3, 4, 4⟩⟩]⟩) =
    check (some ⟨some ⟨0, 0, 10, 10⟩,
      some [⟨⟨3, 3, 4, 4⟩⟩, ⟨⟨1, 1, 2, 2⟩⟩]⟩) :=
  check_perm_invariant (some ⟨0, 0, 10, 10⟩) _ _ (List.Perm.swap _ _ _)
    (by intro t ht; fin_cases ht <;> norm_num [textArea, area])

/-- Counterexample to C6: with an inverted (negative-area) second box the
record has one box strictly inside both shrunk regions, the other box
strictly inside the top 5% strip, total text area at most half the image
area — and `check` still returns bad, because the first prefix of the
running sum already exceeds the threshold. -/
theorem check_middle_top_cex :
    contains (⟨1, 1, 9, 15/2⟩ : Box) (not_top_border ⟨0, 0, 10, 10⟩) = true ∧
    contains (⟨1, 1, 9, 15/2⟩ : Box) (not_bottom_border ⟨0, 0, 10, 10⟩) = true ∧
    contains (⟨9, 1/10, 1, 19/40⟩ : Box) (top_strip ⟨0, 0, 10, 10⟩) = true ∧
    area ⟨1, 1, 9, 15/2⟩ + area ⟨9, 1/10, 1, 19/40⟩ ≤
      area (⟨0, 0, 10, 10⟩ : Box) * (1/2) ∧
    check (some ⟨some ⟨0, 0, 10, 10⟩,
      some [⟨⟨1, 1, 9, 15/2⟩⟩, ⟨⟨9, 1/10, 1, 19/40⟩⟩]⟩) = .ok true := by
  refine ⟨?_, ?_, ?_, ?_, ?_⟩ <;>
    norm_num [check, all_in_border, border_loop, not_top_border,
      not_bottom_border, top_strip, contains, is_sum_larger, sum_loop, area]

/-- C6 as amended: for a record with exactly two text boxes of
nonnegative area, one strictly inside both shrunk regions and the other
strictly inside the top 5% strip, with total text area at most half the
image area, `check` returns good. -/
theorem check_middle_top_good (bb : Box) (t1 t2 : TextBox)
    (l : List TextBox) (hl : l = [t1, t2] ∨ l = [t2, t1])
    (h1t : contains t1.TextBB (not_top_border bb) = true)
    (h1b : contains t1.TextBB (not_bottom_border bb) = true)
    (h2 : contains t2.TextBB (top_strip bb) = true)
    (ha1 : 0 ≤ textArea t1) (ha2 : 0 ≤ textArea t2)
    (hsum : textArea t1 + textArea t2 ≤ area bb * (1/2)) :
    check (some ⟨some bb, some l⟩) = .ok false := by
  rcases hl with rfl | rfl
  · have hB : all_in_border bb [t1, t2] = false :=
      (all_in_border_false_iff _ _).mpr
        ⟨⟨t1, by simp, h1t⟩, ⟨t1, by simp, h1b⟩⟩
    have hS : is_sum_larger (area bb * (1/2)) [t1, t2] = false := by
      apply bool_eq_false_of_not_true
      rw [is_sum_larger_iff]
      rintro ⟨k, hk, hs⟩
      simp only [List.length_cons, List.length_nil] at hk
      interval_cases k <;>
        simp only [List.take_succ_cons, List.take_zero, List.map_cons,
          List.map_nil, List.sum_cons, List.sum_nil, add_zero] at hs <;>
        linarith
    have hS' : is_sum_larger (area bb * 2⁻¹) [t1, t2] = false := by
      rwa [one_div] at hS
    simp [check, hB, hS']
  · have hB : all_in_border bb [t2, t1] = false :=
      (all_in_border_false_iff _ _).mpr
        ⟨⟨t1, by simp, h1t⟩, ⟨t1, by simp, h1b⟩⟩
    have hS : is_sum_larger (area bb * (1/2)) [t2, t1] = false := by
      apply bool_eq_false_of_not_true
      rw [is_sum_larger_iff]
      rintro ⟨k, hk, hs⟩
      simp only [List.length_cons, List.length_nil] at hk
      interval_cases k <;>
        simp only [List.take_succ_cons, List.take_zero, List.map_cons,
          List.map_nil, List.sum_cons, List.sum_nil, add_zero] at hs <;>
        linarith
    have hS' : is_sum_larger (area bb * 2⁻¹) [t2, t1] = false := by
      rwa [one_div] at hS
    simp [check, hB, hS']

/-- Witness for C6 as amended: one middle box and one top-strip box, both
with nonnegative area and small total area, give the verdict good. -/
theorem check_middle_top_good_witness :
    check (some ⟨some ⟨0, 0, 10, 10⟩,
      some [⟨⟨1, 1, 9, 6⟩⟩, ⟨⟨1, 1/10, 9, 2/5⟩⟩]⟩) = .ok false :=
  check_middle_top_good ⟨0, 0, 10, 10⟩ ⟨⟨1, 1, 9, 6⟩⟩ ⟨⟨1, 1/10, 9, 2/5⟩⟩
    [⟨⟨1, 1, 9, 6⟩⟩, ⟨⟨1, 1/10, 9, 2/5⟩⟩] (Or.inl rfl)
    (by norm_num [contains, not_top_border])
    (by norm_num [contains, not_bottom_border])
    (by norm_num [contains, top_strip])
    (by norm_num [textArea, area])
    (by norm_num [textArea, area])
    (by norm_num [textArea, area])

/-! ### Identifier extraction

`PATTERN = re.compile('(.*-Figure-[0-9]+).*\.json')` (source line 42),
used via `PATTERN.search(name)` with `group(1)` printed.  The leading
greedy `.*` inside the group makes the regex engine prefer the rightmost
position at which the rest of the pattern matches; `[0-9]+` greedily
takes the whole digit run (no character of `.json` is a digit, so digit
backtracking never changes the outcome); the trailing `.*\.json` only
requires `.json` to occur somewhere after the digit run. -/

/-- The literal `-Figure-` segment of `PATTERN`. -/
def figTag : List Char := "-Figure-".toList

/-- The literal `.json` required after the captured group. -/
def jsonExt : List Char := ".json".toList

/-- `hasSub pat s`: `pat` occurs in `s` as a contiguous substring — the
semantics of matching `.*\.json` somewhere in the remainder. -/
def hasSub (pat : List Char) : List Char → Bool
  | [] => decide (pat = [])
  | c :: rest => pat.isPrefixOf (c :: rest) || hasSub pat rest

/-- Match `-Figure-[0-9]+` at the current position (digit run taken
greedily) and require `.json` in the remainder; on success return the
capture's tail from this position on. -/
def matchHere (s : List Char) : Option (List Char) :=
  if figTag.isPrefixOf s then
    let rest := s.drop figTag.length
    let ds := rest.takeWhile Char.isDigit
    if ds = [] then none
    else if hasSub jsonExt (rest.dropWhile Char.isDigit) then some (figTag ++ ds)
    else none
  else none

/-- `PATTERN.search(name).group(1)`: the greedy `.*` prefers the
rightmost viable `-Figure-<digits>` occurrence, so positions further
right are tried first and the capture extends from the start of the
string through the digit run. -/
def extract : List Char → Option (List Char)
  | [] => none
  | c :: rest =>
    match extract rest with
    | some r => some (c :: r)
    | none => matchHere (c :: rest)

theorem hasSub_append_self (pat : List Char) :
    ∀ w : List Char, hasSub pat (w ++ pat) = true := by
  intro w
  induction w with
  | nil =>
    cases pat with
    | nil => simp [hasSub]
    | cons c p =>
      simp only [List.nil_append, hasSub]
      have : (c :: p).isPrefixOf (c :: p) = true :=
        List.isPrefixOf_iff_prefix.mpr (List.prefix_refl _)
      simp [this]
  | cons c w ih =>
    cases pat with
    | nil => simp [hasSub]
    | cons d p =>
      simp only [List.cons_append, hasSub]
      rw [show w.append (d :: p) = w ++ (d :: p) from rfl, ih]
      simp

theorem dropWhile_digit_json_suffix :
    ∀ u : List Char, ∃ w, (u ++ jsonExt).dropWhile Char.isDigit = w ++ jsonExt := by
  intro u
  induction u with
  | nil =>
    refine ⟨[], ?_⟩
    simp [jsonExt, List.dropWhile]
  | cons c u ih =>
    by_cases hc : c.isDigit
    · simpa [List.dropWhile, hc] using ih
    · exact ⟨c :: u, by simp [List.dropWhile, hc]⟩

theorem dropWhile_head_not (p : Char → Bool) :
    ∀ (l : List Char) (d : Char) (q : List Char),
      l.dropWhile p = d :: q → p d = false := by
  intro l
  induction l with
  | nil => intro d q h; simp [List.dropWhile] at h
  | cons c rest ih =>
    intro d q h
    by_cases hc : p c
    · rw [List.dropWhile_cons_of_pos hc] at h
      exact ih d q h
    · rw [List.dropWhile_cons_of_neg hc] at h
      cases h
      exact Bool.eq_false_iff.mpr hc

/-- No character of `.json` is a digit. -/
theorem jsonExt_no_digit : ∀ c ∈ jsonExt, c.isDigit = false := by decide

theorem matchHere_some {q r : List Char} (h : matchHere q = some r) :
    ∃ ds rest2, q = figTag ++ (ds ++ rest2) ∧ r = figTag ++ ds ∧
      ds ≠ [] ∧ (∀ c ∈ ds, c.isDigit = true) ∧
      (∀ d q2, rest2 = d :: q2 → d.isDigit = false) := by
  unfold matchHere at h
  by_cases hp : figTag.isPrefixOf q = true
  · rw [if_pos hp] at h
    rcases List.isPrefixOf_iff_prefix.mp hp with ⟨rest, hrest⟩
    have hdrop : q.drop figTag.length = rest := by
      rw [← hrest, List.drop_left]
    rw [hdrop] at h
    by_cases hd : rest.takeWhile Char.isDigit = []
    · rw [if_pos hd] at h; cases h
    · rw [if_neg hd] at h
      by_cases hj : hasSub jsonExt (rest.dropWhile Char.isDigit) = true
      · rw [if_pos hj] at h
        refine ⟨rest.takeWhile Char.isDigit, rest.dropWhile Char.isDigit,
          ?_, ?_, hd, ?_, ?_⟩
        · rw [List.takeWhile_append_dropWhile Char.isDigit rest, hrest]
        · exact (Option.some.injEq _ _ ▸ h).symm
        · intro c hc
          exact List.mem_takeWhile_imp hc
        · intro d q2 hq2
          exact dropWhile_head_not Char.isDigit rest d q2 hq2
      · rw [if_neg hj] at h; cases h
  · rw [if_neg hp] at h; cases h

theorem matchHere_isSome_at (d : Char) (u : List Char)
    (hd : d.isDigit = true) :
    (matchHere (figTag ++ (d :: u ++ jsonExt))).isSome = true := by
  have hp : figTag.isPrefixOf (figTag ++ (d :: u ++ jsonExt)) = true :=
    List.isPrefixOf_iff_prefix.mpr (List.prefix_append _ _)
  rcases dropWhile_digit_json_suffix u with ⟨w, hw⟩
  unfold matchHere
  rw [if_pos hp, List.drop_left]
  simp [List.takeWhile_cons, List.dropWhile_cons, hd, hw, hasSub_append_self]

theorem extract_isSome_iff :
    ∀ s : List Char, (extract s).isSome = true ↔
      ∃ p q, s = p ++ q ∧ (matchHere q).isSome = true := by
  intro s
  induction s with
  | nil =>
    simp only [extract, Option.isSome_none]
    constructor
    · intro h; cases h
    · rintro ⟨p, q, hpq, hm⟩
      rcases List.append_eq_nil.mp hpq.symm with ⟨rfl, rfl⟩
      simp [matchHere, figTag] at hm
  | cons c rest ih =>
    simp only [extract]
    cases he : extract rest with
    | some r =>
      simp only [Option.isSome_some, true_iff]
      have : (extract rest).isSome = true := by rw [he]; rfl
      rcases ih.mp this with ⟨p, q, hpq, hm⟩
      exact ⟨c :: p, q, by rw [hpq]; rfl, hm⟩
    | none =>
      constructor
      · intro h
        exact ⟨[], c :: rest, rfl, h⟩
      · rintro ⟨p, q, hpq, hm⟩
        cases p with
        | nil =>
          simp only [List.nil_append] at hpq
          subst hpq
          exact hm
        | cons c2 p2 =>
          rw [List.cons_append] at hpq
          injection hpq with h1 h2
          have : (extract rest).isSome = true :=
            ih.mpr ⟨p2, q, h2, hm⟩
          rw [he] at this
          cases this

theorem extract_some_decomp :
    ∀ (s r : List Char), extract s = some r →
      ∃ p ds q, s = p ++ figTag ++ ds ++ q ∧ r = p ++ figTag ++ ds ∧
        ds ≠ [] ∧ (∀ c ∈ ds, c.isDigit = true) ∧
        (∀ d q2, q = d :: q2 → d.isDigit = false) := by
  intro s
  induction s with
  | nil => intro r h; cases h
  | cons c rest ih =>
    intro r h
    simp only [extract] at h
    cases he : extract rest with
    | some r2 =>
      rw [he] at h
      injection h with h
      rcases ih r2 he with ⟨p, ds, q, h1, h2, h3, h4, h5⟩
      refine ⟨c :: p, ds, q, ?_, ?_, h3, h4, h5⟩
      · rw [h1]
        simp
      · rw [← h, h2]
        simp
    | none =>
      rw [he] at h
      rcases matchHere_some h with ⟨ds, rest2, h1, h2, h3, h4, h5⟩
      refine ⟨[], ds, rest2, ?_, ?_, h3, h4, h5⟩
      · rw [h1]; simp
      · rw [h2]; simp

/-- C8: identifier extraction.  The two example filenames behave as the
spec says; and—restricted to names carrying the `.json` extension the
caller guarantees—extraction succeeds exactly when the name contains
`-Figure-` immediately followed by a digit, and any successful capture is
a prefix of the name that ends with `-Figure-` plus the complete digit
run (the following character, if any, is not a digit). -/
theorem figure_id_extraction :
    extract ("paper123-Figure-7-thumbnail.json".toList) =
      some ("paper123-Figure-7".toList) ∧
    extract ("paper123-chart.json".toList) = none ∧
    (∀ t : List Char,
      (extract (t ++ jsonExt)).isSome = true ↔
        ∃ p d q, t ++ jsonExt = p ++ figTag ++ (d :: q) ∧ d.isDigit = true) ∧
    (∀ s r : List Char, extract s = some r →
      ∃ p ds q, s = p ++ figTag ++ ds ++ q ∧ r = p ++ figTag ++ ds ∧
        ds ≠ [] ∧ (∀ c ∈ ds, c.isDigit = true) ∧
        (∀ d q2, q = d :: q2 → d.isDigit = false)) := by
  refine ⟨by decide, by decide, ?_, extract_some_decomp⟩
  intro t
  rw [extract_isSome_iff]
  constructor
  · rintro ⟨p, q, hpq, hm⟩
    cases hq : matchHere q with
    | none => rw [hq] at hm; cases hm
    | some r =>
      rcases matchHere_some hq with ⟨ds, rest2, h1, -, h3, h4, -⟩
      cases ds with
      | nil => exact absurd rfl h3
      | cons d ds2 =>
        refine ⟨p, d, ds2 ++ rest2, ?_, h4 d (by simp)⟩
        rw [hpq, h1]
        simp
  · rintro ⟨p, d, q, heq, hd⟩
    -- the tail after the digit is itself followed by `.json`, because
    -- the whole name ends in `.json` and no `.json` character is a digit
    have hsufq : (d :: q) <:+ (t ++ jsonExt) := by
      refine ⟨p ++ figTag, ?_⟩
      rw [heq]
    have hsufj : jsonExt <:+ (t ++ jsonExt) := ⟨t, rfl⟩
    rcases List.suffix_or_suffix_of_suffix hsufj hsufq with hjs | hsj
    · -- `.json` is a suffix of `d :: q`
      rcases hjs with ⟨u, hu⟩
      cases u with
      | nil =>
        -- then `d` would be `'.'`, not a digit
        exfalso
        have hmem : d ∈ jsonExt := by
          have hu2 : jsonExt = d :: q := by simpa using hu
          rw [hu2]
          exact List.mem_cons_self _ _
        rw [jsonExt_no_digit d hmem] at hd
        cases hd
      | cons d2 u2 =>
        have hdq : d :: q = d2 :: (u2 ++ jsonExt) := by
          rw [← hu]; rfl
        injection hdq with hdd hqq
        refine ⟨p, figTag ++ (d :: u2 ++ jsonExt), ?_, ?_⟩
        · rw [heq, hqq]
          simp
        · exact matchHere_isSome_at d u2 hd
    · -- `d :: q` would be a suffix of `.json`, so `d` is a `.json`
      -- character — impossible for a digit
      exfalso
      rcases hsj with ⟨u, hu⟩
      have : d ∈ jsonExt := by
        rw [← hu]; simp
      rw [jsonExt_no_digit d this] at hd
      cases hd

/-- Witness for C8: on `ab-Figure-12.json` the general decomposition of
a successful capture is realized concretely. -/
theorem figure_id_extraction_witness :
    ∃ p ds q, "ab-Figure-12.json".toList = p ++ figTag ++ ds ++ q ∧
      "ab-Figure-12".toList = p ++ figTag ++ ds ∧ ds ≠ [] ∧
      (∀ c ∈ ds, c.isDigit = true) ∧
      (∀ d q2, q = d :: q2 → d.isDigit = false) :=
  figure_id_extraction.2.2.2 ("ab-Figure-12.json".toList)
    ("ab-Figure-12".toList) (by decide)

end FindBad
